import Mathlib

/-!
Verification of the Monte Carlo option-pricing notebook.

The notebook simulates geometric-Brownian-motion price paths with antithetic
variance reduction, computes European/Asian call/put payoffs, discounts the
mean payoff, and cross-checks European prices against the closed-form
Black-Scholes formula.  Matrices are embedded as lists of rows over the real
numbers; numpy's elementwise operations become maps over lists.
-/

namespace MonteCarloOptionPricing

open Real MeasureTheory Set

/-- Python integer conversion of a real value: truncation toward zero
(floor for nonnegative arguments, ceiling for negative ones). -/
noncomputable def pyInt (x : ℝ) : ℤ := if 0 ≤ x then ⌊x⌋ else ⌈x⌉

/-- Number of time steps of the simulation: the notebook computes
it with Python integer conversion of the real quotient T / dt. -/
noncomputable def n_steps (T dt : ℝ) : ℤ := pyInt (T / dt)

/-- The input-validation cell of the notebook.  Its isinstance assertions
hold by typing in this embedding; the only value-level checks are the
membership tests on the two option strings.  No check inspects n_simul
beyond its integer type. -/
def validate_inputs (n_simul : ℤ) (option_type option_nature : String) : Bool :=
  (option_type == "call" || option_type == "put") &&
    (option_nature == "european" || option_nature == "asiatic")

/-- Row count of the base random matrix: Python int(n_simul / 2),
which for a nonnegative integer n_simul is division by 2 rounded down. -/
def random_walks_rows (n_simul : ℕ) : ℕ := n_simul / 2

/-- The antithetic stack: the base rows followed by their elementwise
negations, mirroring vstack of the walks with their negation. -/
def antithetic_random_walks (random_walks : List (List ℝ)) : List (List ℝ) :=
  random_walks ++ random_walks.map (fun row => row.map (fun z => -z))

/-- The multiplicative step factor of the discretized GBM step applied to
one normal draw z; the square root of dt is written as the real power
dt ^ 0.5 exactly as in the source. -/
noncomputable def coeff_multiplicateur (rf sigma dt z : ℝ) : ℝ :=
  Real.exp ((rf - sigma ^ 2 / 2) * dt + sigma * dt ^ (0.5 : ℝ) * z)

/-- Running products of a row with an explicit accumulator. -/
def cumprodAux {M : Type} [Mul M] (acc : M) : List M → List M
  | [] => []
  | x :: xs => (acc * x) :: cumprodAux (acc * x) xs

/-- numpy cumprod along one row: the k-th entry is the product of the
first k+1 entries of the row. -/
def cumprod {M : Type} [Mul M] [One M] (l : List M) : List M := cumprodAux 1 l

/-- One simulated price path: the cumulative product of the step factors of
the row of normal draws, scaled by the initial price S0. -/
noncomputable def simulated_prices_row (S0 rf sigma dt : ℝ) (zs : List ℝ) : List ℝ :=
  (cumprod (zs.map (coeff_multiplicateur rf sigma dt))).map (fun p => S0 * p)

/-- The full matrix of simulated prices: S0 times the cumulative product of
the step factors along axis 1 (each row independently). -/
noncomputable def simulated_prices (S0 rf sigma dt : ℝ) (walks : List (List ℝ)) :
    List (List ℝ) :=
  walks.map (simulated_prices_row S0 rf sigma dt)

/-- The per-step GBM recursion as the spec states it: starting from S0,
each step multiplies the previous price by
exp((r - sigma^2/2) dt + sigma sqrt(dt) Z).  Stated separately from the
vectorized construction so the two can be proved equal. -/
noncomputable def gbm_recursion (S rf sigma dt : ℝ) : List ℝ → List ℝ
  | [] => []
  | z :: zs =>
    (S * Real.exp ((rf - sigma ^ 2 / 2) * dt + sigma * Real.sqrt dt * z)) ::
      gbm_recursion (S * Real.exp ((rf - sigma ^ 2 / 2) * dt + sigma * Real.sqrt dt * z))
        rf sigma dt zs

/-- numpy mean of a row: sum divided by length. -/
noncomputable def np_mean (l : List ℝ) : ℝ := l.sum / l.length

/-- The payoff cell: a branch on the two option strings.  European payoffs
read the last column of the price matrix, Asian payoffs the mean of each
row along axis 1.  The empty-list fallbacks model the branches in which the
source leaves the payoff variable unassigned (the validation cell rules
them out). -/
noncomputable def payoff (option_nature option_type : String) (K : ℝ)
    (prices : List (List ℝ)) : List ℝ :=
  if option_nature = "european" then
    if option_type = "call" then
      prices.map (fun row => max (row.getLastD 0 - K) 0)
    else if option_type = "put" then
      prices.map (fun row => max (K - row.getLastD 0) 0)
    else []
  else if option_nature = "asiatic" then
    if option_type = "call" then
      prices.map (fun row => max (np_mean row - K) 0)
    else if option_type = "put" then
      prices.map (fun row => max (K - np_mean row) 0)
    else []
  else []

/-- Discounting cell: the option price is exp(-rf T) times the mean payoff. -/
noncomputable def option_price (rf T : ℝ) (payoffs : List ℝ) : ℝ :=
  Real.exp (-rf * T) * np_mean payoffs

/-- The whole Monte-Carlo cell, from the base random matrix to the
discounted price. -/
noncomputable def monte_carlo_pipeline (S0 K T rf sigma dt : ℝ)
    (option_nature option_type : String) (random_walks : List (List ℝ)) : ℝ :=
  option_price rf T
    (payoff option_nature option_type K
      (simulated_prices S0 rf sigma dt (antithetic_random_walks random_walks)))

/-- The standard normal cumulative distribution function, as the normalized
Gaussian integral over the left ray. -/
noncomputable def norm_cdf (x : ℝ) : ℝ :=
  (∫ t in Set.Iic x, Real.exp (-t ^ 2 / 2)) / Real.sqrt (2 * Real.pi)

/-- Whether an Except value is a success. -/
def exceptOk {ε α : Type} : Except ε α → Bool
  | Except.ok _ => true
  | Except.error _ => false

/-- The success payload of an Except value, with a default. -/
def exceptGetD {ε α : Type} (e : Except ε α) (d : α) : α :=
  match e with
  | Except.ok a => a
  | Except.error _ => d

/-- The Black-Scholes cell: d1 and d2 are computed unconditionally, then the
call or put formula is selected by the option-type string; only an
unrecognized option type raises an error. -/
noncomputable def black_scholes_option (S0 K T rf sigma : ℝ) (option_type : String) :
    Except String ℝ :=
  let d1 := (Real.log (S0 / K) + (rf + 0.5 * sigma ^ 2) * T) / (sigma * Real.sqrt T)
  let d2 := d1 - sigma * Real.sqrt T
  if option_type = "call" then
    Except.ok (S0 * norm_cdf d1 - K * Real.exp (-rf * T) * norm_cdf d2)
  else if option_type = "put" then
    Except.ok (K * Real.exp (-rf * T) * norm_cdf (-d2) - S0 * norm_cdf (-d1))
  else
    Except.error "Option type must be call or put"

/-! Helper lemmas. -/

/-- The running-product list has the same length as its input. -/
lemma cumprodAux_length {M : Type} [Mul M] (l : List M) :
    ∀ a : M, (cumprodAux a l).length = l.length := by
  induction l with
  | nil => intro a; rfl
  | cons x xs ih => intro a; simp [cumprodAux, ih]

/-- Indexing into a mapped list below its length commutes with the map,
whatever the defaults. -/
lemma getD_map_lt {α β : Type} (f : α → β) (l : List α) (i : ℕ)
    (h : i < l.length) (d : β) (d' : α) :
    (l.map f).getD i d = f (l.getD i d') := by
  rw [List.getD_eq_getElem?_getD, List.getD_eq_getElem?_getD, List.getElem?_map,
    List.getElem?_eq_getElem h]
  rfl

/-- The step factor written with the real square root instead of the real
power 0.5; the two agree definitionally on the square root of dt. -/
lemma coeff_eq_sqrt (rf sigma dt z : ℝ) :
    coeff_multiplicateur rf sigma dt z =
      Real.exp ((rf - sigma ^ 2 / 2) * dt + sigma * Real.sqrt dt * z) := by
  unfold coeff_multiplicateur
  rw [Real.sqrt_eq_rpow]
  norm_num

/-- Every entry of a running product of positive factors starting from a
positive accumulator is positive. -/
lemma cumprodAux_pos (l : List ℝ) (hl : ∀ y ∈ l, 0 < y) :
    ∀ a : ℝ, 0 < a → ∀ x ∈ cumprodAux a l, 0 < x := by
  induction l with
  | nil => intro a _ x hx; cases hx
  | cons y ys ih =>
    intro a ha x hx
    have hy : 0 < y := hl y (List.mem_cons_self y ys)
    have hay : 0 < a * y := mul_pos ha hy
    rcases List.mem_cons.mp hx with h | h
    · simpa [h] using hay
    · exact ih (fun z hz => hl z (List.mem_cons_of_mem y hz)) (a * y) hay x h

/-- Scaled running products of the step factors unfold to the GBM
recursion, for any accumulator. -/
lemma cumprodAux_map_eq_gbm (rf sigma dt : ℝ) (zs : List ℝ) :
    ∀ (a S0 : ℝ),
      (cumprodAux a (zs.map (coeff_multiplicateur rf sigma dt))).map
          (fun p => S0 * p) =
        gbm_recursion (S0 * a) rf sigma dt zs := by
  induction zs with
  | nil => intro a S0; simp [cumprodAux, gbm_recursion]
  | cons z t ih =>
    intro a S0
    simp only [List.map_cons, cumprodAux, gbm_recursion]
    rw [ih (a * coeff_multiplicateur rf sigma dt z) S0, coeff_eq_sqrt, ← mul_assoc]

/-! Claim theorems. -/

/-- C2: the vectorized construction (elementwise step factors, cumulative
product along the time axis, scaled by S0) produces exactly the same price
paths as the per-step GBM recursion started at S0. -/
theorem sim_prices_refine_gbm (S0 rf sigma dt : ℝ) (walks : List (List ℝ)) :
    simulated_prices S0 rf sigma dt walks =
      walks.map (gbm_recursion S0 rf sigma dt) := by
  have hrow : ∀ zs : List ℝ,
      simulated_prices_row S0 rf sigma dt zs = gbm_recursion S0 rf sigma dt zs := by
    intro zs
    have h := cumprodAux_map_eq_gbm rf sigma dt zs 1 S0
    simpa [simulated_prices_row, cumprod] using h
  unfold simulated_prices
  exact List.map_congr_left fun zs _ => hrow zs

/-- C3: in the stacked matrix, when it has n rows, each row i of the first
half is mirrored by row i + n / 2, which is its exact elementwise
negation. -/
theorem antithetic_negation_pairing (rw : List (List ℝ)) (n i : ℕ)
    (hn : (antithetic_random_walks rw).length = n) (hi : i < n / 2) :
    (antithetic_random_walks rw).getD (i + n / 2) [] =
      ((antithetic_random_walks rw).getD i []).map (fun z => -z) := by
  have hlen : (antithetic_random_walks rw).length = 2 * rw.length := by
    simp [antithetic_random_walks, two_mul]
  have hn2 : n / 2 = rw.length := by omega
  rw [hn2] at hi ⊢
  have hget : ∀ j : ℕ, j < rw.length →
      (antithetic_random_walks rw).getD j [] = rw.getD j [] := by
    intro j hj
    rw [List.getD_eq_getElem?_getD, List.getD_eq_getElem?_getD,
      antithetic_random_walks, List.getElem?_append_left (by simpa using hj)]
  have hright :
      (antithetic_random_walks rw).getD (i + rw.length) [] =
        (rw.getD i []).map (fun z => -z) := by
    rw [List.getD_eq_getElem?_getD, antithetic_random_walks,
      List.getElem?_append_right (by omega)]
    have : i + rw.length - rw.length = i := by omega
    rw [this, List.getElem?_map, List.getElem?_eq_getElem (by simpa using hi)]
    simp [List.getD_eq_getElem?_getD, List.getElem?_eq_getElem hi]
  rw [hright, hget i hi]

/-- C3 witness: the pairing at a concrete one-row base matrix. -/
theorem antithetic_negation_pairing_witness :
    (antithetic_random_walks [[(1 : ℝ), 2]]).getD (0 + 2 / 2) [] =
      ((antithetic_random_walks [[(1 : ℝ), 2]]).getD 0 []).map (fun z => -z) :=
  antithetic_negation_pairing [[(1 : ℝ), 2]] 2 0 (by simp [antithetic_random_walks])
    (by decide)

/-- C4: the pipeline price is exp(-rf T) times the arithmetic mean (sum over
length) of the payoff vector. -/
theorem price_is_discounted_mean (S0 K T rf sigma dt : ℝ)
    (option_nature option_type : String) (rw : List (List ℝ)) :
    monte_carlo_pipeline S0 K T rf sigma dt option_nature option_type rw =
      Real.exp (-(rf * T)) *
        ((payoff option_nature option_type K
            (simulated_prices S0 rf sigma dt (antithetic_random_walks rw))).sum /
          (payoff option_nature option_type K
            (simulated_prices S0 rf sigma dt (antithetic_random_walks rw))).length) := by
  simp [monte_carlo_pipeline, option_price, np_mean, neg_mul]

/-- C9: every entry of the payoff vector is nonnegative, for every option
style and type and every price matrix. -/
theorem payoff_nonneg (option_nature option_type : String) (K : ℝ)
    (prices : List (List ℝ)) (x : ℝ)
    (hx : x ∈ payoff option_nature option_type K prices) : 0 ≤ x := by
  unfold payoff at hx
  split_ifs at hx <;>
    first
      | (cases hx)
      | (obtain ⟨row, -, rfl⟩ := List.mem_map.mp hx; exact le_max_right _ _)

/-- C9 witness: a concrete payoff entry is nonnegative. -/
theorem payoff_nonneg_witness :
    0 ≤ max ((100 : ℝ) - 90) 0 :=
  payoff_nonneg "european" "call" 90 [[(100 : ℝ)]] (max ((100 : ℝ) - 90) 0)
    (by simp [payoff])

/-- C10: with a positive initial price, every entry of every simulated price
path is strictly positive. -/
theorem simulated_prices_pos (S0 rf sigma dt : ℝ) (hS0 : 0 < S0)
    (walks : List (List ℝ)) (row : List ℝ)
    (hrow : row ∈ simulated_prices S0 rf sigma dt walks)
    (x : ℝ) (hx : x ∈ row) : 0 < x := by
  obtain ⟨zs, -, rfl⟩ := List.mem_map.mp hrow
  unfold simulated_prices_row at hx
  obtain ⟨p, hp, rfl⟩ := List.mem_map.mp hx
  have hpos : 0 < p := by
    refine cumprodAux_pos _ ?_ 1 one_pos p hp
    intro y hy
    obtain ⟨z, -, rfl⟩ := List.mem_map.mp hy
    exact Real.exp_pos _
  exact mul_pos hS0 hpos

/-- C10 witness: a concrete simulated price entry is positive. -/
theorem simulated_prices_pos_witness :
    0 < 1 * (1 * coeff_multiplicateur 0 0 0 0) :=
  simulated_prices_pos 1 0 0 0 one_pos [[0]]
    (simulated_prices_row 1 0 0 0 [0]) (by simp [simulated_prices])
    (1 * (1 * coeff_multiplicateur 0 0 0 0))
    (by simp [simulated_prices_row, cumprod, cumprodAux])

/-- C1: the payoff-vector entry at each path index equals the spelled-out
formula of the configured style/type combination applied to that path: the
European payoffs depend only on the path's last entry and the Asian mean is
the sum over every simulated time step divided by the step count. -/
theorem payoff_matches_spec_formulas (K : ℝ) (m : List (List ℝ)) (i : ℕ)
    (hi : i < m.length) :
    (payoff "european" "call" K m).getD i 0 =
        max ((m.getD i []).getLastD 0 - K) 0 ∧
      (payoff "european" "put" K m).getD i 0 =
        max (K - (m.getD i []).getLastD 0) 0 ∧
      (payoff "asiatic" "call" K m).getD i 0 =
        max ((m.getD i []).sum / (m.getD i []).length - K) 0 ∧
      (payoff "asiatic" "put" K m).getD i 0 =
        max (K - (m.getD i []).sum / (m.getD i []).length) 0 := by
  have hec : payoff "european" "call" K m =
      m.map (fun row => max (row.getLastD 0 - K) 0) := by simp [payoff]
  have hep : payoff "european" "put" K m =
      m.map (fun row => max (K - row.getLastD 0) 0) := by simp [payoff]
  have hac : payoff "asiatic" "call" K m =
      m.map (fun row => max (np_mean row - K) 0) := by simp [payoff]
  have hap : payoff "asiatic" "put" K m =
      m.map (fun row => max (K - np_mean row) 0) := by simp [payoff]
  refine ⟨?_, ?_, ?_, ?_⟩
  · rw [hec, getD_map_lt _ m i hi 0 []]
  · rw [hep, getD_map_lt _ m i hi 0 []]
  · rw [hac, getD_map_lt _ m i hi 0 []]; simp [np_mean]
  · rw [hap, getD_map_lt _ m i hi 0 []]; simp [np_mean]

/-- C1 witness: the four payoff formulas at a concrete two-step path. -/
theorem payoff_matches_spec_formulas_witness :
    (payoff "european" "call" 90 [[(100 : ℝ), 110]]).getD 0 0 =
        max (([[(100 : ℝ), 110]].getD 0 []).getLastD 0 - 90) 0 ∧
      (payoff "european" "put" 90 [[(100 : ℝ), 110]]).getD 0 0 =
        max (90 - ([[(100 : ℝ), 110]].getD 0 []).getLastD 0) 0 ∧
      (payoff "asiatic" "call" 90 [[(100 : ℝ), 110]]).getD 0 0 =
        max (([[(100 : ℝ), 110]].getD 0 []).sum /
          ([[(100 : ℝ), 110]].getD 0 []).length - 90) 0 ∧
      (payoff "asiatic" "put" 90 [[(100 : ℝ), 110]]).getD 0 0 =
        max (90 - ([[(100 : ℝ), 110]].getD 0 []).sum /
          ([[(100 : ℝ), 110]].getD 0 []).length) 0 :=
  payoff_matches_spec_formulas 90 [[(100 : ℝ), 110]] 0 (by decide)

/-- C5 counterexample: the step count is not computed by round-to-nearest:
at T = 0.7 and dt = 0.4 the quotient is 1.75, which the code truncates to 1
while rounding gives 2. -/
theorem n_steps_not_round_cex :
    n_steps (7 / 10 : ℝ) (2 / 5) ≠ round ((7 / 10 : ℝ) / (2 / 5)) := by
  have hq : ((7 : ℝ) / 10) / (2 / 5) = 7 / 4 := by norm_num
  have hfloor : ⌊(7 / 4 : ℝ)⌋ = 1 := Int.floor_eq_iff.mpr (by norm_num)
  have hround : round ((7 / 4 : ℝ)) = 2 := by
    rw [round_eq]
    have : (7 / 4 : ℝ) + 1 / 2 = 9 / 4 := by norm_num
    rw [this]
    exact Int.floor_eq_iff.mpr (by norm_num)
  unfold n_steps pyInt
  rw [hq, if_pos (by norm_num), hfloor, hround]
  decide

/-- C5 amended: for positive T and dt the step count is the truncation
(floor) of T / dt, so it is at least 1 exactly when dt is at most T (it is 0
when T is smaller than dt); every simulated price path has exactly as many
entries as its row of normal draws. -/
theorem n_steps_truncation (T dt S0 rf sigma : ℝ) (zs : List ℝ)
    (hT : 0 < T) (hdt : 0 < dt) :
    n_steps T dt = ⌊T / dt⌋ ∧ (dt ≤ T → 1 ≤ n_steps T dt) ∧
      (simulated_prices_row S0 rf sigma dt zs).length = zs.length := by
  have hq : 0 ≤ T / dt := le_of_lt (div_pos hT hdt)
  have h1 : n_steps T dt = ⌊T / dt⌋ := by unfold n_steps pyInt; rw [if_pos hq]
  refine ⟨h1, ?_, ?_⟩
  · intro hle
    rw [h1]
    exact Int.le_floor.mpr (by exact_mod_cast (one_le_div hdt).mpr hle)
  · simp [simulated_prices_row, cumprod, cumprodAux_length]

/-- C5 amended witness: truncation and path length at T = 0.5, dt = 1/252. -/
theorem n_steps_truncation_witness :
    n_steps (1 / 2 : ℝ) (1 / 252) = ⌊(1 / 2 : ℝ) / (1 / 252)⌋ ∧
      ((1 / 252 : ℝ) ≤ 1 / 2 → 1 ≤ n_steps (1 / 2 : ℝ) (1 / 252)) ∧
      (simulated_prices_row 100 (2 / 100) (2 / 10) (1 / 252) [0, 0]).length =
        [(0 : ℝ), 0].length :=
  n_steps_truncation (1 / 2) (1 / 252) 100 (2 / 100) (2 / 10) [0, 0]
    (by norm_num) (by norm_num)

/-- C6 counterexample: an odd simulation count is not rejected: with
numSimulations = 3 the validation cell passes, and the simulation proceeds
on int(3 / 2) = 1 base row, producing an antithetic matrix of 2 rows. -/
theorem odd_numsimul_not_rejected_cex :
    validate_inputs 3 "call" "european" = true ∧
      (antithetic_random_walks
        (List.replicate (random_walks_rows 3) [(0 : ℝ)])).length = 2 := by
  constructor
  · rfl
  · simp [antithetic_random_walks, random_walks_rows]

/-- C6 amended: for an odd simulation count the code performs no evenness or
minimum check: validation passes, and the pipeline runs on
int(numSimulations / 2) base rows, so the antithetic matrix has
numSimulations - 1 rows instead of numSimulations. -/
theorem odd_numsimul_proceeds (n : ℕ) (rw : List (List ℝ)) (hodd : Odd n)
    (hn : 1 ≤ n) (hlen : rw.length = random_walks_rows n) :
    validate_inputs n "call" "european" = true ∧
      (antithetic_random_walks rw).length = n - 1 := by
  refine ⟨rfl, ?_⟩
  have h2 : (antithetic_random_walks rw).length = 2 * rw.length := by
    simp [antithetic_random_walks, two_mul]
  rw [h2, hlen]
  unfold random_walks_rows
  obtain ⟨k, hk⟩ := hodd
  omega

/-- C6 amended witness: the antithetic matrix for numSimulations = 3 has two
rows. -/
theorem odd_numsimul_proceeds_witness :
    validate_inputs 3 "call" "european" = true ∧
      (antithetic_random_walks [[(0 : ℝ)]]).length = 3 - 1 :=
  odd_numsimul_proceeds 3 [[(0 : ℝ)]] (by decide) (by decide) rfl

/-- C7 counterexample: the analytic pricer does not validate sigma or T:
invoked with sigma = 0 it still returns a successful value rather than an
error. -/
theorem bs_no_validation_cex :
    exceptOk (black_scholes_option 100 90 1 (2 / 100) 0 "call") = true := rfl

/-- C7 amended: for any parameters, including sigma at most 0 or T at most 0,
the analytic pricer returns a successful value for both recognized option
types; it never raises a configuration error (the only error branch is an
unrecognized option type). -/
theorem bs_no_sigma_T_validation (S0 K T rf sigma : ℝ)
    (h : sigma ≤ 0 ∨ T ≤ 0) :
    exceptOk (black_scholes_option S0 K T rf sigma "call") = true ∧
      exceptOk (black_scholes_option S0 K T rf sigma "put") = true := by
  exact ⟨rfl, rfl⟩

/-- The Gaussian density written with the factor pulled out front. -/
lemma gauss_fun_eq :
    (fun t : ℝ => Real.exp (-t ^ 2 / 2)) =
      fun t : ℝ => Real.exp (-(1 / 2 : ℝ) * t ^ 2) := by
  funext t
  congr 1
  ring

/-- The Gaussian density is integrable over the line. -/
lemma integrable_gauss : Integrable (fun t : ℝ => Real.exp (-t ^ 2 / 2)) := by
  rw [gauss_fun_eq]
  exact integrable_exp_neg_mul_sq (by norm_num)

/-- The total Gaussian integral is the square root of 2 pi. -/
lemma integral_gauss_total :
    (∫ t : ℝ, Real.exp (-t ^ 2 / 2)) = Real.sqrt (2 * Real.pi) := by
  rw [gauss_fun_eq, integral_gaussian]
  rw [show Real.pi / (1 / 2 : ℝ) = 2 * Real.pi by ring]

/-- The standard normal CDF satisfies N(x) + N(-x) = 1. -/
lemma norm_cdf_add_neg (x : ℝ) : norm_cdf x + norm_cdf (-x) = 1 := by
  have hIic : (∫ t in Set.Iic (-x), Real.exp (-t ^ 2 / 2)) =
      ∫ t in Set.Ioi x, Real.exp (-t ^ 2 / 2) := by
    have h := integral_comp_neg_Iic (-x) (fun t => Real.exp (-t ^ 2 / 2))
    simp only [neg_neg, neg_sq] at h
    exact h
  have hsplit : (∫ t in Set.Iic x, Real.exp (-t ^ 2 / 2)) +
        (∫ t in Set.Ioi x, Real.exp (-t ^ 2 / 2)) =
      ∫ t : ℝ, Real.exp (-t ^ 2 / 2) :=
    intervalIntegral.integral_Iic_add_Ioi integrable_gauss.integrableOn
      integrable_gauss.integrableOn
  unfold norm_cdf
  rw [div_add_div_same, hIic, hsplit, integral_gauss_total]
  exact div_self (ne_of_gt (Real.sqrt_pos.mpr (by positivity)))

/-- Put-call parity as a statement about the CDF values at mirrored
arguments. -/
lemma parity_core (s ke a b : ℝ) :
    (s * norm_cdf a - ke * norm_cdf b) -
      (ke * norm_cdf (-b) - s * norm_cdf (-a)) = s - ke := by
  linear_combination s * norm_cdf_add_neg a - ke * norm_cdf_add_neg b

/-- C8: for every valid configuration the analytic call and put prices both
succeed and their difference is S0 - K exp(-rf T): put-call parity holds
exactly in real arithmetic. -/
theorem bs_put_call_parity (S0 K T rf sigma : ℝ)
    (hS0 : 0 < S0) (hK : 0 < K) (hT : 0 < T) (hsigma : 0 < sigma) :
    exceptOk (black_scholes_option S0 K T rf sigma "call") = true ∧
      exceptOk (black_scholes_option S0 K T rf sigma "put") = true ∧
      exceptGetD (black_scholes_option S0 K T rf sigma "call") 0 -
          exceptGetD (black_scholes_option S0 K T rf sigma "put") 0 =
        S0 - K * Real.exp (-rf * T) := by
  refine ⟨rfl, rfl, ?_⟩
  show (S0 * norm_cdf ((Real.log (S0 / K) + (rf + 0.5 * sigma ^ 2) * T) /
          (sigma * Real.sqrt T)) -
        K * Real.exp (-rf * T) * norm_cdf ((Real.log (S0 / K) +
          (rf + 0.5 * sigma ^ 2) * T) / (sigma * Real.sqrt T) -
          sigma * Real.sqrt T)) -
      (K * Real.exp (-rf * T) * norm_cdf (-((Real.log (S0 / K) +
          (rf + 0.5 * sigma ^ 2) * T) / (sigma * Real.sqrt T) -
          sigma * Real.sqrt T)) -
        S0 * norm_cdf (-((Real.log (S0 / K) + (rf + 0.5 * sigma ^ 2) * T) /
          (sigma * Real.sqrt T)))) =
      S0 - K * Real.exp (-rf * T)
  exact parity_core S0 (K * Real.exp (-rf * T)) _ _

/-- C8 witness: put-call parity at the notebook's sample configuration. -/
theorem bs_put_call_parity_witness :
    exceptOk (black_scholes_option 100 90 (1 / 2) (2 / 100) (2 / 10) "call") =
        true ∧
      exceptOk (black_scholes_option 100 90 (1 / 2) (2 / 100) (2 / 10) "put") =
        true ∧
      exceptGetD (black_scholes_option 100 90 (1 / 2) (2 / 100) (2 / 10) "call")
            0 -
          exceptGetD (black_scholes_option 100 90 (1 / 2) (2 / 100) (2 / 10)
            "put") 0 =
        100 - 90 * Real.exp (-(2 / 100) * (1 / 2)) :=
  bs_put_call_parity 100 90 (1 / 2) (2 / 100) (2 / 10) (by norm_num)
    (by norm_num) (by norm_num) (by norm_num)

/-- C7 amended witness: both option types succeed at sigma = 0. -/
theorem bs_no_sigma_T_validation_witness :
    exceptOk (black_scholes_option 100 90 (1 / 2) (2 / 100) 0 "call") = true ∧
      exceptOk (black_scholes_option 100 90 (1 / 2) (2 / 100) 0 "put") = true :=
  bs_no_sigma_T_validation 100 90 (1 / 2) (2 / 100) 0 (Or.inl le_rfl)

end MonteCarloOptionPricing
